import Mathlib

/-!
Verification development for the AManPG sparse-PCA implementation
(`sparsepca.py`).  The Python source is shallowly embedded over exact
rationals: numpy arrays become `Matrix (Fin m) (Fin n) ℚ` (or `ℝ` where a
square root is genuinely taken by the code), in-place numpy updates become
explicit state passing, and the two backtracking line-search `while` loops
become fuel-indexed recursions (the Python loops can diverge for
`gamma ≥ 1`, so fuel is the honest model; theorems track the exit kind).

The eigendecomposition / SVD retraction steps call an external
linear-algebra library in the source (out of scope per the package design);
the solver embedding is parameterized by that retraction map `retr`, and
concrete runs instantiate it with the exact 1x1 instance (`polar1`), for
which both the eig-based inverse square root `tx * (tx^T tx)^(-1/2)` and
the SVD polar factor `u @ v` equal `sign(tx)`.
-/

namespace AManPG

open Matrix

/-! ## Definitions: the shallow embedding of `sparsepca.py` -/

/-- Rational-entried matrix, the embedding of a numpy float array. -/
abbrev Mat (m n : ℕ) := Matrix (Fin m) (Fin n) ℚ

/-- Embedding of `np.sum(a * b)` (elementwise product, then total sum). -/
def sumMul {m n : ℕ} (a b : Mat m n) : ℚ := ∑ i, ∑ j, a i j * b i j

/-- Embedding of `LA.norm(a, 'fro') ** 2` (sum of squared entries). -/
def fro2 {m n : ℕ} (a : Mat m n) : ℚ := ∑ i, ∑ j, (a i j) ^ 2

/-- Embedding of the penalty closure
`h = lambda x: np.sum(mu.T * np.sum(np.abs(x), axis=0, keepdims=True))`:
the weighted L1 penalty, weight `mu j` on column `j`. -/
def hPen {d n : ℕ} (mu : Fin n → ℚ) (x : Mat d n) : ℚ :=
  ∑ j, mu j * ∑ i, |x i j|

/-- Embedding of `np.sign` on a scalar. -/
def qsign (x : ℚ) : ℚ := if 0 < x then 1 else if x < 0 then -1 else 0

/-- Embedding of `prox_l1(b, lamb, r)` (source lines 255-278):
`a = np.abs(b) - lamb.T` broadcasts the column-threshold vector across rows;
`act_set = (a > 0).astype(float) if r < 15 else a > 0` differs between the
two `r` branches only in dtype (float 0/1 versus boolean), which is
numerically identical in the product `act_set * np.sign(b) * a`, so both
arms carry the same rational expression here.  The unused `inact_set`
binding of the source is dead code and not modelled. -/
def prox_l1 {p n : ℕ} (b : Mat p n) (lamb : Fin n → ℚ) (r : ℕ) : Mat p n :=
  let a : Mat p n := Matrix.of fun i j => |b i j| - lamb j
  if r < 15 then
    Matrix.of fun i j => (if 0 < a i j then (1 : ℚ) else 0) * qsign (b i j) * a i j
  else
    Matrix.of fun i j => (if 0 < a i j then (1 : ℚ) else 0) * qsign (b i j) * a i j

/-- Scalar soft-threshold `sign(v) * max(|v| - τ, 0)`, the closed form the
spec claims for each entry of `prox_l1`. -/
def softThresh (v τ : ℚ) : ℚ := qsign v * max (|v| - τ) 0

/-! ### Input-mode auto-detection (source lines 60-62)

After the optional normalization, the source reads `m, d = np.shape(b)` and
then runs `if d < m * 2: b = b.T @ b; type = 1`, i.e. it replaces the input
by its Gram matrix and switches to covariance mode exactly when
`d < m * 2`. -/

/-- The two internal forms of the input: data form (the original `m x d`
array) or Gram/covariance form (`d x d`). -/
inductive PreForm (m d : ℕ) where
  | data (b : Mat m d)
  | gram (g : Mat d d)

/-- Whether the Gram/covariance mode flag (`type = 1`) has been set. -/
def PreForm.isGram {m d : ℕ} : PreForm m d → Bool
  | .data _ => false
  | .gram _ => true

/-- Embedding of the shape heuristic `if d < m * 2: b = b.T @ b; type = 1`
applied to a data-form input (`type = 0` on entry). -/
def preprocess {m d : ℕ} (b : Mat m d) : PreForm m d :=
  if d < m * 2 then .gram (bᵀ * b) else .data b

/-- Fixed nonzero 2x3 data matrix: 2 rows, 3 columns. -/
def bC3 : Mat 2 3 := Matrix.of ![![1, 0, 2], ![0, 1, 1]]

/-! ### Projected gradients for the x-update

Finite-ridge branch (source lines 133-135):
`gx = -2 * ay; xgx = gx.T @ x; rgx = gx - 0.5 * x @ (xgx + xgx.T)`.
Infinite-ridge branch (source lines 199-201):
`gx = -2 * ay; xgx = gx.T @ x; rgx = gx - x @ xgx`. -/

/-- Euclidean gradient of the smooth cross term: `gx = -2 * ay`. -/
def gxOf {d n : ℕ} (ay : Mat d n) : Mat d n := (-2 : ℚ) • ay

/-- Finite-ridge projected gradient `gx - 0.5 * x @ (xgx + xgx.T)` with
`xgx = gx.T @ x`. -/
def rgxFin {d n : ℕ} (x gx : Mat d n) : Mat d n :=
  let xgx := gxᵀ * x
  gx - (1 / 2 : ℚ) • (x * (xgx + xgxᵀ))

/-- Infinite-ridge projected gradient `gx - x @ xgx` with `xgx = gx.T @ x`. -/
def rgxInf {d n : ℕ} (x gx : Mat d n) : Mat d n :=
  let xgx := gxᵀ * x
  gx - x * xgx

/-- Orthonormal 2x2 point (the identity) used in the C4 counterexample. -/
def xC4 : Mat 2 2 := Matrix.of ![![1, 0], ![0, 1]]

/-- Gradient value with `(gx)ᵀ * x` asymmetric at `xC4`. -/
def gxC4 : Mat 2 2 := Matrix.of ![![0, 1], ![0, 0]]

/-! ### Normalization (source lines 281-299)

`normalize(x)` executes `x -= np.mean(x, axis=1, keepdims=True)` and then
`x /= LA.norm(x, axis=1, keepdims=True)`.  Both statements are in-place
numpy operations: they write through to the array the caller passed in, and
the same (mutated) object is returned.  The row norm takes a real square
root, so this part of the embedding lives over `ℝ`.  The function contains
no raise statement and no guard: a zero-norm row is divided by zero
(producing non-finite values in numpy; Lean's total division returns the
junk value 0 there).  `normalizeE` records the error behaviour of the call:
its result is always `Except.ok`. -/

/-- Real-entried matrix, for the parts of the source that take square
roots. -/
abbrev MatR (m n : ℕ) := Matrix (Fin m) (Fin n) ℝ

/-- Row centering `x -= np.mean(x, axis=1, keepdims=True)`. -/
noncomputable def center {m n : ℕ} (x : MatR m n) : MatR m n :=
  Matrix.of fun i j => x i j - (∑ k, x i k) / n

/-- Row Euclidean norm `LA.norm(x, axis=1)` of row `i`. -/
noncomputable def rowNorm {m n : ℕ} (x : MatR m n) (i : Fin m) : ℝ :=
  Real.sqrt (∑ j, (x i j) ^ 2)

/-- Embedding of `normalize`: center the rows, then divide each row by its
Euclidean norm — unconditionally, exactly as the source does. -/
noncomputable def normalize {m n : ℕ} (x : MatR m n) : MatR m n :=
  Matrix.of fun i j => center x i j / rowNorm (center x) i

/-- Error view of a `normalize` call: the source has no raise statement and
no error path, so the call always returns a value.  A `NumericalDegeneracy`
error, had the source raised one, would appear here as `Except.error`. -/
noncomputable def normalizeE {m n : ℕ} (x : MatR m n) : Except String (MatR m n) :=
  Except.ok (normalize x)

/-- Input whose first row is constant (all-zero after centering) and whose
second row is already centered with Euclidean norm 2. -/
noncomputable def mC5 : MatR 2 4 := Matrix.of ![![1, 1, 1, 1], ![1, 1, -1, -1]]

/-! ### Read-only status of the caller's arrays (C9)

With `norm=True` (the default) the entry point runs `b = normalize(b)`
(source line 53).  Because `normalize` mutates its argument in place (the
`-=` and `/=` above), the array the caller passed in holds the centered,
row-scaled values after the call.  With `norm=False` no statement of `spca`
writes into the caller's arrays: `b = b.T @ b` rebinds the local name to a
fresh array, and `mu` is only read (`mu.T`, `mu * t` allocate).  The
penalty vector is therefore read-only, the input matrix only when
`norm=False`. -/

/-- Contents of the caller's input array after `spca(b, ..., norm=norm)`
returns (or fails): `normalize` has written through when `norm` is true. -/
noncomputable def spcaInputAfter {m n : ℕ} (b : MatR m n) (norm : Bool) : MatR m n :=
  if norm then normalize b else b

/-- Already-centered single-row input with integer row norm 2. -/
noncomputable def mC9 : MatR 1 4 := Matrix.of ![![1, 1, -1, -1]]

/-! ### Result assembly (source lines 240-250)

`y_norm = np.sqrt(np.sum(y ** 2, axis=0)).reshape(4, 1)` computes the
column norms of `y` and then reshapes the length-`n` vector to shape
`(4, 1)` — which raises `ValueError` unless `n = 4`.  For `n = 4`,
`y_norm[y_norm == 0] = 1` clamps zero norms to 1 and
`np.divide(y, np.ones((d, 1)) @ y_norm.T)` divides each column by its
(clamped) norm. -/

/-- Squared Euclidean norm of column `j` of `y` (`np.sum(y ** 2, axis=0)`). -/
def yColNormSq {d n : ℕ} (y : Mat d n) (j : Fin n) : ℚ := ∑ i, (y i j) ^ 2

/-- Embedding of the loadings assembly.  The `reshape(4, 1)` of the length-`n`
column-norm vector succeeds only for `n = 4`; any other `n` raises
`ValueError`, modelled as `none`.  On success each column is divided by its
Euclidean norm, with a zero norm clamped to 1. -/
noncomputable def spcaLoadings {d n : ℕ} (y : Mat d n) : Option (MatR d n) :=
  if n = 4 then
    some (Matrix.of fun i j =>
      (y i j : ℝ) /
        (if Real.sqrt ((yColNormSq y j : ℚ) : ℝ) = 0 then 1
         else Real.sqrt ((yColNormSq y j : ℚ) : ℝ)))
  else none

/-- Nonzero 2x2 final `y` (any run with `n = 2` reaches the assembly with
such a matrix). -/
def yC1 : Mat 2 2 := Matrix.of ![![3, 0], ![4, 1]]

/-! ### The main loop (source lines 92-238)

The solver state mirrors the mutable locals of `spca`.  The embedding works
in Gram/covariance mode (`type = 1`), where the products are `ay = b @ y`
and `ax = b @ x` with `b` the (square) Gram matrix `A`; the data-mode
products `b.T @ (b @ y)` equal `(bᵀ * b) * y` by associativity
(`dataMode_product` below), so the same loop covers both modes.  The two
backtracking `while` loops take a fuel argument (the Python loop diverges
if `gamma ≥ 1`); `LSExit` records how the search ended: `armijo` — the
sufficient-decrease test accepted the current trial; `floor` — the step
fell below the hard floor and the loop broke, keeping the last trial;
`fuelOut` — fuel exhausted (an artifact of the embedding, never hit in the
concrete runs below). -/

/-- How a backtracking line search ended. -/
inductive LSExit where
  | armijo
  | floor
  | fuelOut
deriving DecidableEq, Repr

/-- The mutable locals of the main loop of `spca`. `fPrev` is the last
trace entry `f_rgd[i-1]`; `trace` is the full `f_rgd` list in order. -/
structure St (d n : ℕ) where
  x : Mat d n
  y : Mat d n
  ay : Mat d n
  ax : Mat d n
  t : ℚ
  tau : ℚ
  flagY : Bool
  flagX : Bool
  minStep : Bool
  fPrev : ℚ
  trace : List ℚ

/-- Result of the y line search: accepted `y_t`, its product `ayt`, its
objective value `f_ytrial`, the final step `t`, `linesearch_flag_y`, the
(fixed) squared gradient-map norm `normpg`, and the exit kind. -/
structure YRes (d n : ℕ) where
  y : Mat d n
  ay : Mat d n
  f : ℚ
  t : ℚ
  flag : Bool
  npg : ℚ
  exit : LSExit

/-- Result of the x line search: accepted `x_trial`, its objective value
`f_xtrial`, the final step `tau`, `linesearch_flag`, `min_step`, and the
exit kind. -/
structure XRes (d n : ℕ) where
  x : Mat d n
  f : ℚ
  tau : ℚ
  flag : Bool
  minStep : Bool
  exit : LSExit

/-- Finite-ridge trial point (source line 108 / 119):
`prox_l1(y - t * 2 * (ay - ax + lamb * y), mu * t, n)`. -/
def yTrialF {d n : ℕ} (y ay ax : Mat d n) (mu : Fin n → ℚ) (lamb t : ℚ) : Mat d n :=
  prox_l1 (y - (t * 2) • (ay - ax + lamb • y)) (fun j => mu j * t) n

/-- Finite-ridge objective of a trial (source line 110 / 121):
`-2*np.sum(x*ayt) + np.sum(y_t*ayt) + lamb*norm(y_t)**2 + h(y_t)`. -/
def fYVal {d n : ℕ} (x : Mat d n) (mu : Fin n → ℚ) (lamb : ℚ) (y_t ayt : Mat d n) : ℚ :=
  -2 * sumMul x ayt + sumMul y_t ayt + lamb * fro2 y_t + hPen mu y_t

/-- The y backtracking loop (source lines 114-122): while the trial fails
the sufficient-decrease test `f_ytrial <= f_prev - 1e-3 * t * normpg`,
multiply `t` by `gamma`; break (keeping the stale trial) if `t` falls
below `1e-5 / d` (`yfloor`); otherwise recompute the trial at the new `t`
and set `linesearch_flag_y = 1`.  `normpg` is computed once, before the
loop, and never updated — exactly as in the source. -/
def yLSF {d n : ℕ} (x y ay ax : Mat d n) (A : Mat d d) (mu : Fin n → ℚ)
    (lamb gamma fprev npg yfloor : ℚ) :
    ℕ → ℚ → Bool → Mat d n → Mat d n → ℚ → YRes d n
  | fuel, t, flag, y_t, ayt, f_yt =>
    if f_yt ≤ fprev - (1 / 1000) * t * npg then
      ⟨y_t, ayt, f_yt, t, flag, npg, .armijo⟩
    else if t * gamma < yfloor then
      ⟨y_t, ayt, f_yt, t * gamma, flag, npg, .floor⟩
    else
      match fuel with
      | 0 => ⟨y_t, ayt, f_yt, t * gamma, flag, npg, .fuelOut⟩
      | fuel' + 1 =>
        yLSF x y ay ax A mu lamb gamma fprev npg yfloor fuel' (t * gamma) true
          (yTrialF y ay ax mu lamb (t * gamma))
          (A * yTrialF y ay ax mu lamb (t * gamma))
          (fYVal x mu lamb (yTrialF y ay ax mu lamb (t * gamma))
            (A * yTrialF y ay ax mu lamb (t * gamma)))

/-- The finite-ridge y update (source lines 104-124): adapt `t`
(`t = t*1.01 if not linesearch_flag_y else max(1/ly, t/1.01)`), reset the
flag, compute the first trial and `normpg = norm(y_t - y)**2 / t**2`, then
run the backtracking loop. -/
def yUpdateF {d n : ℕ} (A : Mat d d) (mu : Fin n → ℚ) (lamb gamma ly : ℚ)
    (fuel : ℕ) (s : St d n) : YRes d n :=
  let t1 := if s.flagY then max (1 / ly) (s.t / (101 / 100)) else s.t * (101 / 100)
  let y1 := yTrialF s.y s.ay s.ax mu lamb t1
  let ay1 := A * y1
  let npg := fro2 (y1 - s.y) / t1 ^ 2
  yLSF s.x s.y s.ay s.ax A mu lamb gamma s.fPrev npg ((1 / 100000) / (d : ℚ))
    fuel t1 false y1 ay1 (fYVal s.x mu lamb y1 ay1)

/-- The x backtracking loop (source lines 145-157 and 210-222, identical up
to the retraction and the floor): while
`f_xtrial > fxval - 1e-3 * tau * normpg`, multiply `tau` by `gamma`; break
with `min_step = 1` (keeping the stale trial) if `tau` falls below the
floor; otherwise recompute `x_trial = retr(x - tau * rgx)` and set
`linesearch_flag = 1`. -/
def xLS {d n : ℕ} (retr : Mat d n → Mat d n) (ay x rgx : Mat d n)
    (gamma fxval npg xfloor : ℚ) :
    ℕ → ℚ → Bool → Mat d n → ℚ → XRes d n
  | fuel, tau, flag, x_t, f_xt =>
    if f_xt ≤ fxval - (1 / 1000) * tau * npg then
      ⟨x_t, f_xt, tau, flag, false, .armijo⟩
    else if tau * gamma < xfloor then
      ⟨x_t, f_xt, tau * gamma, flag, true, .floor⟩
    else
      match fuel with
      | 0 => ⟨x_t, f_xt, tau * gamma, flag, false, .fuelOut⟩
      | fuel' + 1 =>
        xLS retr ay x rgx gamma fxval npg xfloor fuel' (tau * gamma) true
          (retr (x - (tau * gamma) • rgx))
          (-2 * sumMul (retr (x - (tau * gamma) • rgx)) ay)

/-- The finite-ridge x update (source lines 126-157): adapt `tau`
(grow by 1.1 unless the last search shrank; reset to `1/d` after a
minimum-step event), form the projected gradient `rgxFin`, retract the
trial step with the external eigendecomposition-based retraction `retr`,
and run the backtracking loop with floor `1e-5 / d`. -/
def xUpdateF {d n : ℕ} (retr : Mat d n → Mat d n) (gamma : ℚ) (fuel : ℕ)
    (x ay : Mat d n) (tau : ℚ) (flagX minStep : Bool) : XRes d n :=
  let tau1 := if flagX then tau else tau * (11 / 10)
  let tau2 := if minStep then 1 / (d : ℚ) else tau1
  let rgx := rgxFin x (gxOf ay)
  let x1 := retr (x - tau2 • rgx)
  xLS retr ay x rgx gamma (-2 * sumMul x ay) (fro2 rgx) ((1 / 100000) / (d : ℚ))
    fuel tau2 false x1 (-2 * sumMul x1 ay)

/-- The infinite-ridge x update (source lines 185-222): as `xUpdateF` but
with the canonical gradient `rgxInf`, the SVD polar retraction for `retr`,
and floor `1e-3 / d`. -/
def xUpdateInf {d n : ℕ} (retr : Mat d n → Mat d n) (gamma : ℚ) (fuel : ℕ)
    (x ay : Mat d n) (tau : ℚ) (flagX minStep : Bool) : XRes d n :=
  let tau1 := if flagX then tau else tau * (11 / 10)
  let tau2 := if minStep then 1 / (d : ℚ) else tau1
  let rgx := rgxInf x (gxOf ay)
  let x1 := retr (x - tau2 • rgx)
  xLS retr ay x rgx gamma (-2 * sumMul x ay) (fro2 rgx) ((1 / 1000) / (d : ℚ))
    fuel tau2 false x1 (-2 * sumMul x1 ay)

/-- The infinite-ridge y update (source lines 193-195): a single proximal
step `prox_l1(y - 2 * t * (-ax + y), mu * t, n)` with the fixed step
`t = 1/2` — no test, no retry. -/
def yUpdateInf {d n : ℕ} (ax y : Mat d n) (mu : Fin n → ℚ) : Mat d n :=
  prox_l1 (y - (2 * (1 / 2 : ℚ)) • ((-ax) + y)) (fun j => mu j * (1 / 2)) n

/-- One finite-ridge iteration (source lines 98-168): the y proximal update
with its line search, then the x retraction update with its line search,
then `ax = A * x`, the recomputed `fy`, and the trace append
`f_rgd.append(fx + fy)`. -/
def stepF {d n : ℕ} (A : Mat d d) (retr : Mat d n → Mat d n) (mu : Fin n → ℚ)
    (lamb gamma ly : ℚ) (fuel : ℕ) (s : St d n) : St d n :=
  let yr := yUpdateF A mu lamb gamma ly fuel s
  let xr := xUpdateF retr gamma fuel s.x yr.ay s.tau s.flagX s.minStep
  let fy := sumMul yr.y yr.ay + lamb * fro2 yr.y + hPen mu yr.y
  let fNew := xr.f + fy
  { x := xr.x, y := yr.y, ay := yr.ay, ax := A * xr.x,
    t := yr.t, tau := xr.tau, flagY := yr.flag, flagX := xr.flag,
    minStep := xr.minStep, fPrev := fNew, trace := s.trace ++ [fNew] }

/-- One infinite-ridge iteration (source lines 179-227): the fixed-step y
proximal update, then the x retraction update with its line search, then
`ax = A * x`, `fy = norm(y)**2 + h(y)`, and the trace append.  (The `tau`
bookkeeping of source lines 185-191 precedes the y update there; it only
touches `tau` and the flags, which the y update does not read, and is
carried out inside `xUpdateInf`.) -/
def stepI {d n : ℕ} (A : Mat d d) (retr : Mat d n → Mat d n) (mu : Fin n → ℚ)
    (gamma : ℚ) (fuel : ℕ) (s : St d n) : St d n :=
  let y1 := yUpdateInf s.ax s.y mu
  let ay1 := A * y1
  let xr := xUpdateInf retr gamma fuel s.x ay1 s.tau s.flagX s.minStep
  let fy := fro2 y1 + hPen mu y1
  let fNew := xr.f + fy
  { x := xr.x, y := y1, ay := ay1, ax := A * xr.x,
    t := 1 / 2, tau := xr.tau, flagY := s.flagY, flagX := xr.flag,
    minStep := xr.minStep, fPrev := fNew, trace := s.trace ++ [fNew] }

/-- Finite-ridge stopping test (source line 170).  Python parses
`A and B or C` as `(A and B) or C`, so the code stops early exactly when
(improvement below `tol` AND objective below `f_palm`) OR improvement
below the absolute floor `1e-12`. -/
def stopF (fNew fOld tol f_palm : ℚ) : Bool :=
  (decide (|fNew - fOld| < tol) && decide (fNew < f_palm)) ||
    decide (|fNew - fOld| < 1 / 10 ^ 12)

/-- Infinite-ridge stopping test (source line 235): improvement below
`tol`. -/
def stopI (fNew fOld tol : ℚ) : Bool := decide (|fNew - fOld| < tol)

/-- The `for i in range(1, int(maxiter))` loop with early `break`: runs the
body for `i, i+1, ...` while iterations remain, stopping when `stop`
accepts the new and previous trace values.  On normal exhaustion the last
executed index (`i - 1` when called with `i`) is returned, matching the
Python loop variable left bound after the loop. -/
def loopAux {d n : ℕ} (body : St d n → St d n) (stop : ℚ → ℚ → Bool) :
    ℕ → ℕ → St d n → ℕ × St d n
  | 0, i, s => (i - 1, s)
  | r + 1, i, s =>
    let s' := body s
    if stop s'.fPrev s.fPrev then (i, s')
    else loopAux body stop r (i + 1) s'

/-- The main loop of `spca` for one branch: `for i in range(1, int(maxiter))`
executes `int(maxiter) - 1` iterations at most.  If `int(maxiter) <= 1` the
loop body never runs and the result assembly reads the never-bound loop
variable `i` (`f_rgd[i]`, `"iter": i`), raising `NameError` — modelled as
`none`.  Otherwise the pair (final `i`, final state) is returned. -/
def spcaRun {d n : ℕ} (body : St d n → St d n) (stop : ℚ → ℚ → Bool)
    (maxiter : ℕ) (s0 : St d n) : Option (ℕ × St d n) :=
  if maxiter ≤ 1 then none
  else some (loopAux body stop (maxiter - 1) 1 s0)

/-- The finite-ridge main loop (source lines 93-173). -/
def spcaRunF {d n : ℕ} (A : Mat d d) (retr : Mat d n → Mat d n) (mu : Fin n → ℚ)
    (lamb gamma ly : ℚ) (fuel : ℕ) (tol f_palm : ℚ) (maxiter : ℕ)
    (s0 : St d n) : Option (ℕ × St d n) :=
  spcaRun (stepF A retr mu lamb gamma ly fuel)
    (fun fNew fOld => stopF fNew fOld tol f_palm) maxiter s0

/-- The infinite-ridge main loop (source lines 174-238). -/
def spcaRunI {d n : ℕ} (A : Mat d d) (retr : Mat d n → Mat d n) (mu : Fin n → ℚ)
    (gamma : ℚ) (fuel : ℕ) (tol : ℚ) (maxiter : ℕ)
    (s0 : St d n) : Option (ℕ × St d n) :=
  spcaRun (stepI A retr mu gamma fuel)
    (fun fNew fOld => stopI fNew fOld tol) maxiter s0

/-- Exact 1x1 instance of both retractions of the source: for a nonzero
scalar `t`, the finite-ridge retraction is
`t * (eig(t^2) gives sigma=t^2, u=1) => t * sqrt(1/t^2) = t / |t| = sign t`,
and the SVD polar factor of `[t]` is `u @ v = sign t` as well. -/
def polar1 (m : Mat 1 1) : Mat 1 1 := Matrix.of fun _ _ => qsign (m 0 0)

/-! ### The fixed-step y update of the infinite-ridge branch always passes
the Armijo test

The smooth part of the infinite-ridge y objective is an exact quadratic
with Hessian `2 I`, and the fixed step `t = 1/2` is exactly `1/L`; the
strong minimality of the soft-threshold then gives a decrease of at least
`‖y' - y‖_F^2`, far more than the `1e-3 * t * normpg = ‖y' - y‖_F^2 / 500`
the sufficient-decrease test asks for. -/

/-- Composite objective of the infinite-ridge branch at variables `(x, z)`:
`fx + fy = -2*np.sum(x*ay) + norm(z,'fro')**2 + h(z)` with `ay = A*z`
(source lines 175-177 and 224-227). -/
def fYValInf {d n : ℕ} (A : Mat d d) (x : Mat d n) (mu : Fin n → ℚ) (z : Mat d n) : ℚ :=
  -2 * sumMul x (A * z) + fro2 z + hPen mu z

/-! ### Concrete instances (1x1, exactly rational) -/

/-- 1x1 Gram matrix `[[1]]` — arising from the data matrix `[[1],[0]]`,
which the mode heuristic converts (`d = 1 < 4 = m * 2`). -/
def A1 : Mat 1 1 := Matrix.of ![![1]]

/-- Zero penalty vector for one component. -/
def mu0 : Fin 1 → ℚ := fun _ => 0

/-- Off-manifold caller-supplied initial `x0 = [[2]]` (the entry point does
not validate or project `x0`). -/
def xW : Mat 1 1 := Matrix.of ![![2]]

/-- Initial `y0 = [[1]]`. -/
def yW : Mat 1 1 := Matrix.of ![![1]]

/-- Finite-ridge state with `x = y = ay = ax = [[1]]`, `lamb = 1`,
`t = 1/ly = 1/4`, `tau = 100/d`, flags as the source initializes them,
and `f_rgd[0] = -2*1 + (1 + 1 + 0) = 0`. -/
def sW : St 1 1 where
  x := Matrix.of ![![1]]
  y := Matrix.of ![![1]]
  ay := Matrix.of ![![1]]
  ax := Matrix.of ![![1]]
  t := 1 / 4
  tau := 100
  flagY := true
  flagX := true
  minStep := false
  fPrev := 0
  trace := [0]

/-- Initial state of the infinite-ridge counterexample run: input
`b = [[1],[0]]` with `norm=False` (so `A = bᵀ b = [[1]]`, covariance mode),
caller-supplied `x0 = [[2]]`, `y0 = [[1]]`, `mu = [0]`.  The source sets
`t = 1/ly = 1/inf = 0` (unused by this branch), `tau = 100/d = 100`,
`linesearch_flag = linesearch_flag_y = 1`, `min_step = 0`, and
`f_rgd[0] = -2*np.sum(x*ay) + norm(y)**2 + h(y) = -4 + 1 = -3`. -/
def s0C8 : St 1 1 where
  x := Matrix.of ![![2]]
  y := Matrix.of ![![1]]
  ay := Matrix.of ![![1]]
  ax := Matrix.of ![![2]]
  t := 0
  tau := 100
  flagY := true
  flagX := true
  minStep := false
  fPrev := -3
  trace := [-3]

/-- The infinite-ridge run of `spca(b, [0], inf, f_palm, x0=[[2]],
y0=[[1]], n=1, maxiter=10, norm=False)` on `b = [[1],[0]]`: `gamma = 1/2`,
`tol = 1e-5`, SVD polar retraction (exact at 1x1: `polar1`). -/
def runC8 : Option (ℕ × St 1 1) :=
  spcaRunI A1 polar1 mu0 (1 / 2) 100 (1 / 100000) 10 s0C8

/-! ## Theorems -/

/-- Entrywise closed form of `prox_l1`: each entry is the scalar
soft-threshold of the corresponding input entry at the corresponding
column threshold. -/
lemma prox_l1_apply {p n : ℕ} (b : Mat p n) (lamb : Fin n → ℚ) (r : ℕ)
    (i : Fin p) (j : Fin n) :
    prox_l1 b lamb r i j = softThresh (b i j) (lamb j) := by
  unfold prox_l1 softThresh qsign
  rcases lt_or_le r 15 with hr | hr
  · simp only [if_pos hr, Matrix.of_apply]
    rcases lt_trichotomy (0 : ℚ) (|b i j| - lamb j) with ha | ha | ha
    · rw [if_pos ha, max_eq_left ha.le]; ring
    · rw [if_neg (by rw [← ha]; exact lt_irrefl 0), max_eq_right ha.ge, ← ha]; ring
    · rw [if_neg (by exact not_lt.mpr ha.le), max_eq_right ha.le]; ring
  · simp only [if_neg (not_lt.mpr hr), Matrix.of_apply]
    rcases lt_trichotomy (0 : ℚ) (|b i j| - lamb j) with ha | ha | ha
    · rw [if_pos ha, max_eq_left ha.le]; ring
    · rw [if_neg (by rw [← ha]; exact lt_irrefl 0), max_eq_right ha.ge, ← ha]; ring
    · rw [if_neg (by exact not_lt.mpr ha.le), max_eq_right ha.le]; ring

/-- C6: for every matrix `b`, threshold vector `lamb` and column count `r`,
`prox_l1 b lamb r` is the elementwise soft-threshold
`sign(b) * max(|b| - lamb, 0)` with `lamb` broadcast across rows, and the
result does not depend on `r` (the `r < 15` branch only changes the dtype
of the activation mask in the source).  The embedding is a pure function of
its arguments, matching the source, which allocates fresh arrays and never
writes into `b` or `lamb`. -/
theorem C6_prox_l1_soft_threshold :
    ∀ (p n : ℕ) (b : Mat p n) (lamb : Fin n → ℚ) (r r' : ℕ),
      (∀ i j, prox_l1 b lamb r i j = qsign (b i j) * max (|b i j| - lamb j) 0) ∧
      prox_l1 b lamb r = prox_l1 b lamb r' := by
  intro p n b lamb r r'
  constructor
  · intro i j
    exact prox_l1_apply b lamb r i j
  · ext i j
    rw [prox_l1_apply, prox_l1_apply]

/-- C3 counterexample: for a 2x3 input (m = 2 rows, d = 3 columns) the code
converts to Gram form, because `d < m * 2` (3 < 4) holds, even though the
claimed condition `m ≥ 2 * d` (2 ≥ 6) is false.  So conversion is not
equivalent to `m ≥ 2 * d`. -/
theorem C3_counterexample :
    (preprocess bC3).isGram = true ∧ ¬ (2 ≥ 2 * 3) := by
  constructor
  · rfl
  · decide

/-- C3 amended: a data-form `m x d` input is converted to Gram/covariance
form if and only if `d < 2 * m` (equivalently, it is kept in data form
exactly when the column count is at least twice the row count). -/
theorem C3_convert_iff :
    ∀ (m d : ℕ) (b : Mat m d), (preprocess b).isGram = true ↔ d < 2 * m := by
  intro m d b
  unfold preprocess
  rcases lt_or_le d (m * 2) with h | h
  · simp [h, PreForm.isGram, Nat.mul_comm m 2 ▸ h]
  · simp only [if_neg (not_lt.mpr h), PreForm.isGram]
    constructor
    · intro hfalse; cases hfalse
    · intro hlt; exact absurd (Nat.mul_comm 2 m ▸ hlt) (not_lt.mpr h)

/-- C4 counterexample: at the column-orthonormal point `x = I₂` and gradient
`gx = [[0,1],[0,0]]`, the code's infinite-ridge projected gradient
`gx - x @ (gx.T @ x)` differs from the claimed formula
`gx - x @ (x.T @ gx)`: the code gives `[[0,1],[-1,0]]`, the claim gives `0`.
The gradient `gx` arises as `-2 * ay` for `ay = [[0,-1/2],[0,0]]`. -/
theorem C4_counterexample :
    gxC4 = gxOf (Matrix.of ![![0, -1/2], ![0, 0]]) ∧
      rgxInf xC4 gxC4 ≠ gxC4 - xC4 * (xC4ᵀ * gxC4) := by
  constructor
  · ext i j
    fin_cases i <;> fin_cases j
    all_goals simp [gxC4, gxOf, Matrix.smul_apply]
    all_goals norm_num
  · intro h
    have h10 := congrFun (congrFun h 1) 0
    simp only [rgxInf, Matrix.sub_apply, Matrix.mul_apply, Matrix.transpose_apply] at h10
    rw [Fin.sum_univ_two, Fin.sum_univ_two, Fin.sum_univ_two, Fin.sum_univ_two] at h10
    simp [xC4, gxC4] at h10

/-- C4 amended: in the finite-ridge branch the projected gradient equals
`grad - 0.5 * x * (gradᵀ x + xᵀ grad)` as the claim states; in the
infinite-ridge branch it equals `grad - x * (gradᵀ x)` (the transpose of the
product claimed), where `grad = -2 * ay`. -/
theorem C4_projected_gradients :
    ∀ (d n : ℕ) (x ay : Mat d n),
      rgxFin x (gxOf ay) =
        gxOf ay - (1 / 2 : ℚ) • (x * ((gxOf ay)ᵀ * x + xᵀ * gxOf ay)) ∧
      rgxInf x (gxOf ay) = gxOf ay - x * ((gxOf ay)ᵀ * x) := by
  intro d n x ay
  constructor
  · show gxOf ay - (1 / 2 : ℚ) • (x * ((gxOf ay)ᵀ * x + ((gxOf ay)ᵀ * x)ᵀ)) = _
    rw [Matrix.transpose_mul, Matrix.transpose_transpose]
  · rfl

/-- Centered first row of `mC5` is identically zero, so its row norm is 0. -/
lemma mC5_row0_degenerate : rowNorm (center mC5) 0 = 0 := by
  have hc : ∀ j : Fin 4, center mC5 0 j = 0 := by
    intro j
    simp only [center, Matrix.of_apply, mC5]
    rw [Fin.sum_univ_four]
    fin_cases j <;> norm_num
  unfold rowNorm
  rw [Fin.sum_univ_four, hc 0, hc 1, hc 2, hc 3]
  norm_num

/-- C5 counterexample: `mC5` has a row that is all-zero after centering
(its divisor is exactly 0), yet `normalize` does not raise: the call
returns `Except.ok` and simply performs the division.  This refutes the
claim that a `NumericalDegeneracy` error is raised for every such input. -/
theorem C5_counterexample :
    rowNorm (center mC5) 0 = 0 ∧ normalizeE mC5 = Except.ok (normalize mC5) := by
  exact ⟨mC5_row0_degenerate, rfl⟩

/-- C5 amended: `normalize` never raises — every call returns `Except.ok`
of the unconditionally divided matrix (a zero-norm row is divided by zero
and propagates non-finite values in numpy rather than raising); on every
row whose centered norm is nonzero the division does produce a unit-norm
row. -/
theorem C5_normalize_never_raises :
    ∀ (m n : ℕ) (x : MatR m n),
      normalizeE x = Except.ok (normalize x) ∧
      ∀ i : Fin m, rowNorm (center x) i ≠ 0 →
        (∑ j, (normalize x i j) ^ 2) = 1 := by
  intro m n x
  refine ⟨rfl, fun i hne => ?_⟩
  have hsum : (0 : ℝ) ≤ ∑ j, (center x i j) ^ 2 :=
    Finset.sum_nonneg fun j _ => sq_nonneg _
  have hsq : rowNorm (center x) i ^ 2 = ∑ j, (center x i j) ^ 2 := by
    unfold rowNorm
    exact Real.sq_sqrt hsum
  have hs_ne : (∑ j, (center x i j) ^ 2) ≠ 0 := by
    intro h0
    apply hne
    unfold rowNorm
    rw [h0, Real.sqrt_zero]
  calc (∑ j, (normalize x i j) ^ 2)
      = (∑ j, (center x i j) ^ 2) / rowNorm (center x) i ^ 2 := by
        rw [Finset.sum_div]
        refine Finset.sum_congr rfl fun j _ => ?_
        simp only [normalize, Matrix.of_apply]
        rw [div_pow]
    _ = 1 := by rw [hsq, div_self hs_ne]

/-- Witness for the amended C5: applied to `mC5`, whose second row has
centered norm 2. -/
theorem C5_normalize_never_raises_witness :
    normalizeE mC5 = Except.ok (normalize mC5) ∧
      (∑ j, (normalize mC5 1 j) ^ 2) = 1 := by
  have hrow : rowNorm (center mC5) 1 ≠ 0 := by
    have hc : ∀ j : Fin 4, center mC5 1 j = mC5 1 j := by
      intro j
      simp only [center, Matrix.of_apply, mC5]
      rw [Fin.sum_univ_four]
      fin_cases j <;> norm_num
    unfold rowNorm
    rw [Fin.sum_univ_four, hc 0, hc 1, hc 2, hc 3]
    have : mC5 1 0 ^ 2 + mC5 1 1 ^ 2 + mC5 1 2 ^ 2 + mC5 1 3 ^ 2 = 4 := by
      simp [mC5]; norm_num
    rw [this]
    intro h4
    have := Real.sqrt_eq_zero (by norm_num : (0:ℝ) ≤ 4) |>.mp h4
    norm_num at this
  exact ⟨(C5_normalize_never_raises 2 4 mC5).1,
    (C5_normalize_never_raises 2 4 mC5).2 1 hrow⟩

/-- C9 counterexample: with the default `norm=True`, the caller's array
after the call differs from the array passed in — entry (0,0) becomes 1/2.
So the input matrix is not read-only. -/
theorem C9_counterexample : spcaInputAfter mC9 true ≠ mC9 := by
  intro h
  have h00 := congrFun (congrFun h 0) 0
  have hc : ∀ j : Fin 4, center mC9 0 j = mC9 0 j := by
    intro j
    simp only [center, Matrix.of_apply, mC9]
    rw [Fin.sum_univ_four]
    fin_cases j <;> norm_num
  have hnorm : rowNorm (center mC9) 0 = 2 := by
    unfold rowNorm
    rw [Fin.sum_univ_four, hc 0, hc 1, hc 2, hc 3]
    have : mC9 0 0 ^ 2 + mC9 0 1 ^ 2 + mC9 0 2 ^ 2 + mC9 0 3 ^ 2 = 4 := by
      simp [mC9]; norm_num
    rw [this, show (4:ℝ) = 2 ^ 2 by norm_num, Real.sqrt_sq (by norm_num : (0:ℝ) ≤ 2)]
  simp only [spcaInputAfter, if_pos, normalize, Matrix.of_apply] at h00
  rw [hc 0, hnorm] at h00
  have h1 : mC9 0 0 = 1 := by simp [mC9]
  rw [h1] at h00
  norm_num at h00

/-- C9 amended: the penalty vector is read-only (the source only ever reads
`mu`), and the input matrix is left untouched exactly when `norm=False`;
with `norm=True` the caller's array afterwards holds `normalize b`. -/
theorem C9_input_mutation :
    ∀ (m n : ℕ) (b : MatR m n),
      spcaInputAfter b false = b ∧ spcaInputAfter b true = normalize b := by
  intro m n b
  exact ⟨rfl, rfl⟩

/-- C1 (code bug witness): the result assembly fails for `n = 2` — the
hardcoded `reshape(4, 1)` cannot reshape a length-2 vector, so no loadings
are produced, although every column of `yC1` is nonzero and the claim
requires unit-normalized loadings for every valid `n`. -/
theorem C1_reshape_hardcoded : spcaLoadings yC1 = none := by
  rfl

/-- Supporting fact (the claim's property does hold on the `n = 4` path):
whenever the assembly succeeds, every column of the loadings with nonzero
squared norm in `y` has unit Euclidean norm, and zero columns are divided
by the clamped divisor 1. -/
lemma spcaLoadings_unit_columns {d : ℕ} (y : Mat d 4) (L : MatR d 4)
    (hL : spcaLoadings y = some L) (j : Fin 4) (hj : yColNormSq y j ≠ 0) :
    (∑ i, (L i j) ^ 2) = 1 := by
  have hpos : (0 : ℚ) < yColNormSq y j := by
    rcases lt_or_eq_of_le (Finset.sum_nonneg fun i _ => sq_nonneg (y i j)) with h | h
    · exact h
    · exact absurd h.symm hj
  have hposR : (0 : ℝ) < ((yColNormSq y j : ℚ) : ℝ) := by exact_mod_cast hpos
  have hsne : Real.sqrt ((yColNormSq y j : ℚ) : ℝ) ≠ 0 := by
    intro h0
    have := (Real.sqrt_eq_zero hposR.le).mp h0
    exact absurd this (ne_of_gt hposR)
  have hLval : L = Matrix.of fun i j =>
      (y i j : ℝ) /
        (if Real.sqrt ((yColNormSq y j : ℚ) : ℝ) = 0 then 1
         else Real.sqrt ((yColNormSq y j : ℚ) : ℝ)) := by
    have : spcaLoadings y = some (Matrix.of fun i j =>
      (y i j : ℝ) /
        (if Real.sqrt ((yColNormSq y j : ℚ) : ℝ) = 0 then 1
         else Real.sqrt ((yColNormSq y j : ℚ) : ℝ))) := by
      unfold spcaLoadings
      rw [if_pos rfl]
    rw [this] at hL
    exact (Option.some_inj.mp hL).symm
  subst hLval
  have hsq : Real.sqrt ((yColNormSq y j : ℚ) : ℝ) ^ 2 = ((yColNormSq y j : ℚ) : ℝ) :=
    Real.sq_sqrt hposR.le
  calc (∑ i, ((Matrix.of fun i j =>
          (y i j : ℝ) /
            (if Real.sqrt ((yColNormSq y j : ℚ) : ℝ) = 0 then 1
             else Real.sqrt ((yColNormSq y j : ℚ) : ℝ))) i j) ^ 2)
      = (∑ i, ((y i j : ℝ)) ^ 2) / Real.sqrt ((yColNormSq y j : ℚ) : ℝ) ^ 2 := by
        rw [Finset.sum_div]
        refine Finset.sum_congr rfl fun i _ => ?_
        simp only [Matrix.of_apply, if_neg hsne]
        rw [div_pow]
    _ = 1 := by
        rw [hsq]
        have hcast : (∑ i, ((y i j : ℝ)) ^ 2) = ((yColNormSq y j : ℚ) : ℝ) := by
          unfold yColNormSq
          push_cast
          rfl
        rw [hcast, div_self (ne_of_gt hposR)]

/-- Data-mode products reduce to Gram-mode products: `b.T @ (b @ y)` is
`(bᵀ * b) * y`. -/
lemma dataMode_product {m d n : ℕ} (b : Mat m d) (y : Mat d n) :
    bᵀ * (b * y) = (bᵀ * b) * y :=
  (Matrix.mul_assoc bᵀ b y).symm

/-- The loop never reports an iteration index beyond the last one it could
have executed: starting at index `i` with `r` iterations remaining, the
reported index is at most `i + r - 1`. -/
lemma loopAux_fst_le {d n : ℕ} (body : St d n → St d n) (stop : ℚ → ℚ → Bool) :
    ∀ (r i : ℕ) (s : St d n), (loopAux body stop r i s).1 ≤ i + r - 1 := by
  intro r
  induction r with
  | zero =>
    intro i s
    simp [loopAux]
  | succ r ih =>
    intro i s
    show (if stop (body s).fPrev s.fPrev = true then (i, body s)
        else loopAux body stop r (i + 1) (body s)).1 ≤ i + (r + 1) - 1
    split
    · show i ≤ i + (r + 1) - 1
      omega
    · calc (loopAux body stop r (i + 1) (body s)).1
          ≤ (i + 1) + r - 1 := ih (i + 1) (body s)
        _ = i + (r + 1) - 1 := by omega

/-- C7: the finite-ridge branch stops early exactly when (the absolute
improvement is below `tol` AND the objective is below `f_palm`) OR the
improvement is below the absolute floor `1e-12` (Python parses
`A and B or C` as `(A and B) or C`); the infinite-ridge branch stops early
exactly when the improvement is below `tol`; and both branches report an
iteration index of at most `int(maxiter) - 1`, so they stop
unconditionally at the iteration cap. -/
theorem C7_stopping_rules :
    (∀ fNew fOld tol f_palm : ℚ,
        stopF fNew fOld tol f_palm = true ↔
          ((|fNew - fOld| < tol ∧ fNew < f_palm) ∨ |fNew - fOld| < 1 / 10 ^ 12)) ∧
    (∀ fNew fOld tol : ℚ, stopI fNew fOld tol = true ↔ |fNew - fOld| < tol) ∧
    (∀ (d n : ℕ) (A : Mat d d) (retr : Mat d n → Mat d n) (mu : Fin n → ℚ)
        (lamb gamma ly : ℚ) (fuel : ℕ) (tol f_palm : ℚ) (M : ℕ) (s0 : St d n),
        ((spcaRunF A retr mu lamb gamma ly fuel tol f_palm M s0).map Prod.fst).getD 0
          ≤ M - 1) ∧
    (∀ (d n : ℕ) (A : Mat d d) (retr : Mat d n → Mat d n) (mu : Fin n → ℚ)
        (gamma : ℚ) (fuel : ℕ) (tol : ℚ) (M : ℕ) (s0 : St d n),
        ((spcaRunI A retr mu gamma fuel tol M s0).map Prod.fst).getD 0 ≤ M - 1) := by
  refine ⟨?_, ?_, ?_, ?_⟩
  · intro fNew fOld tol f_palm
    unfold stopF
    simp
  · intro fNew fOld tol
    unfold stopI
    simp
  · intro d n A retr mu lamb gamma ly fuel tol f_palm M s0
    unfold spcaRunF spcaRun
    rcases le_or_lt M 1 with hM | hM
    · rw [if_pos hM]; simp
    · rw [if_neg (not_le.mpr hM)]
      show (loopAux _ _ (M - 1) 1 s0).1 ≤ M - 1
      calc (loopAux _ _ (M - 1) 1 s0).1 ≤ 1 + (M - 1) - 1 := loopAux_fst_le _ _ _ 1 s0
        _ = M - 1 := by omega
  · intro d n A retr mu gamma fuel tol M s0
    unfold spcaRunI spcaRun
    rcases le_or_lt M 1 with hM | hM
    · rw [if_pos hM]; simp
    · rw [if_neg (not_le.mpr hM)]
      show (loopAux _ _ (M - 1) 1 s0).1 ≤ M - 1
      calc (loopAux _ _ (M - 1) 1 s0).1 ≤ 1 + (M - 1) - 1 := loopAux_fst_le _ _ _ 1 s0
        _ = M - 1 := by omega

/-- C10: each branch's loop returns a result only when `int(maxiter) ≥ 2`
(for `int(maxiter) ≤ 1` the `for i in range(1, int(maxiter))` body never
runs, so the result assembly reads the unbound loop variable `i` and the
call fails — `none`), and any reported iteration count is at most
`int(maxiter) - 1`. -/
theorem C10_maxiter_semantics :
    ∀ (d n : ℕ) (A : Mat d d) (retr : Mat d n → Mat d n) (mu : Fin n → ℚ)
      (lamb gamma ly : ℚ) (fuel : ℕ) (tol f_palm : ℚ) (M : ℕ) (s0 : St d n),
      (2 ≤ M ∨ spcaRunF A retr mu lamb gamma ly fuel tol f_palm M s0 = none) ∧
      ((spcaRunF A retr mu lamb gamma ly fuel tol f_palm M s0).map Prod.fst).getD 0
        ≤ M - 1 ∧
      (2 ≤ M ∨ spcaRunI A retr mu gamma fuel tol M s0 = none) ∧
      ((spcaRunI A retr mu gamma fuel tol M s0).map Prod.fst).getD 0 ≤ M - 1 := by
  intro d n A retr mu lamb gamma ly fuel tol f_palm M s0
  refine ⟨?_, ?_, ?_, ?_⟩
  · rcases le_or_lt M 1 with hM | hM
    · right
      unfold spcaRunF spcaRun
      rw [if_pos hM]
    · left; omega
  · unfold spcaRunF spcaRun
    rcases le_or_lt M 1 with hM | hM
    · rw [if_pos hM]; simp
    · rw [if_neg (not_le.mpr hM)]
      show (loopAux _ _ (M - 1) 1 s0).1 ≤ M - 1
      calc (loopAux _ _ (M - 1) 1 s0).1 ≤ 1 + (M - 1) - 1 := loopAux_fst_le _ _ _ 1 s0
        _ = M - 1 := by omega
  · rcases le_or_lt M 1 with hM | hM
    · right
      unfold spcaRunI spcaRun
      rw [if_pos hM]
    · left; omega
  · unfold spcaRunI spcaRun
    rcases le_or_lt M 1 with hM | hM
    · rw [if_pos hM]; simp
    · rw [if_neg (not_le.mpr hM)]
      show (loopAux _ _ (M - 1) 1 s0).1 ≤ M - 1
      calc (loopAux _ _ (M - 1) 1 s0).1 ≤ 1 + (M - 1) - 1 := loopAux_fst_le _ _ _ 1 s0
        _ = M - 1 := by omega

/-! ### Postconditions of the two backtracking searches -/

/-- Squared Frobenius norms are nonnegative. -/
lemma fro2_nonneg {m n : ℕ} (a : Mat m n) : 0 ≤ fro2 a :=
  Finset.sum_nonneg fun _ _ => Finset.sum_nonneg fun _ _ => sq_nonneg _

/-- Invariants of the y backtracking loop: the accepted trial carries its
own product and objective value, the final step stays nonnegative, `normpg`
is returned unchanged, an `armijo` exit satisfies the sufficient-decrease
test at the final step, and a `floor` exit means the final step fell below
the floor. -/
lemma yLSF_spec {d n : ℕ} (x y ay ax : Mat d n) (A : Mat d d) (mu : Fin n → ℚ)
    (lamb gamma fprev npg yfloor : ℚ) (hg : 0 ≤ gamma) :
    ∀ (fuel : ℕ) (t : ℚ) (flag : Bool) (y_t ayt : Mat d n) (f_yt : ℚ),
      0 ≤ t → ayt = A * y_t → f_yt = fYVal x mu lamb y_t ayt →
      (yLSF x y ay ax A mu lamb gamma fprev npg yfloor fuel t flag y_t ayt f_yt).ay
          = A * (yLSF x y ay ax A mu lamb gamma fprev npg yfloor fuel t flag y_t ayt f_yt).y ∧
      (yLSF x y ay ax A mu lamb gamma fprev npg yfloor fuel t flag y_t ayt f_yt).f
          = fYVal x mu lamb
              (yLSF x y ay ax A mu lamb gamma fprev npg yfloor fuel t flag y_t ayt f_yt).y
              (yLSF x y ay ax A mu lamb gamma fprev npg yfloor fuel t flag y_t ayt f_yt).ay ∧
      0 ≤ (yLSF x y ay ax A mu lamb gamma fprev npg yfloor fuel t flag y_t ayt f_yt).t ∧
      (yLSF x y ay ax A mu lamb gamma fprev npg yfloor fuel t flag y_t ayt f_yt).npg = npg ∧
      ((yLSF x y ay ax A mu lamb gamma fprev npg yfloor fuel t flag y_t ayt f_yt).exit
          = .armijo →
        (yLSF x y ay ax A mu lamb gamma fprev npg yfloor fuel t flag y_t ayt f_yt).f
          ≤ fprev - (1 / 1000)
              * (yLSF x y ay ax A mu lamb gamma fprev npg yfloor fuel t flag y_t ayt f_yt).t
              * npg) ∧
      ((yLSF x y ay ax A mu lamb gamma fprev npg yfloor fuel t flag y_t ayt f_yt).exit
          = .floor →
        (yLSF x y ay ax A mu lamb gamma fprev npg yfloor fuel t flag y_t ayt f_yt).t
          < yfloor) := by
  intro fuel
  induction fuel with
  | zero =>
    intro t flag y_t ayt f_yt ht hay hf
    unfold yLSF
    split
    next harm =>
      exact ⟨hay, hf, ht, rfl, fun _ => harm, fun h => LSExit.noConfusion h⟩
    next =>
      split
      next hfl =>
        exact ⟨hay, hf, mul_nonneg ht hg, rfl, fun h => LSExit.noConfusion h,
          fun _ => hfl⟩
      next =>
        exact ⟨hay, hf, mul_nonneg ht hg, rfl, fun h => LSExit.noConfusion h,
          fun h => LSExit.noConfusion h⟩
  | succ fuel ih =>
    intro t flag y_t ayt f_yt ht hay hf
    unfold yLSF
    split
    next harm =>
      exact ⟨hay, hf, ht, rfl, fun _ => harm, fun h => LSExit.noConfusion h⟩
    next =>
      split
      next hfl =>
        exact ⟨hay, hf, mul_nonneg ht hg, rfl, fun h => LSExit.noConfusion h,
          fun _ => hfl⟩
      next =>
        exact ih (t * gamma) true _ _ _ (mul_nonneg ht hg) rfl rfl

/-- Invariants of the x backtracking loop: the accepted trial carries its
objective value, the step stays nonnegative, an `armijo` exit satisfies the
sufficient-decrease test at the final step (and leaves `min_step = 0`), and
a `floor` exit means the final step fell below the floor (with
`min_step = 1`). -/
lemma xLS_spec {d n : ℕ} (retr : Mat d n → Mat d n) (ay x rgx : Mat d n)
    (gamma fxval npg xfloor : ℚ) (hg : 0 ≤ gamma) :
    ∀ (fuel : ℕ) (tau : ℚ) (flag : Bool) (x_t : Mat d n) (f_xt : ℚ),
      0 ≤ tau → f_xt = -2 * sumMul x_t ay →
      (xLS retr ay x rgx gamma fxval npg xfloor fuel tau flag x_t f_xt).f
          = -2 * sumMul (xLS retr ay x rgx gamma fxval npg xfloor fuel tau flag x_t f_xt).x ay ∧
      0 ≤ (xLS retr ay x rgx gamma fxval npg xfloor fuel tau flag x_t f_xt).tau ∧
      ((xLS retr ay x rgx gamma fxval npg xfloor fuel tau flag x_t f_xt).exit = .armijo →
        (xLS retr ay x rgx gamma fxval npg xfloor fuel tau flag x_t f_xt).f
          ≤ fxval - (1 / 1000)
              * (xLS retr ay x rgx gamma fxval npg xfloor fuel tau flag x_t f_xt).tau
              * npg ∧
        (xLS retr ay x rgx gamma fxval npg xfloor fuel tau flag x_t f_xt).minStep = false) ∧
      ((xLS retr ay x rgx gamma fxval npg xfloor fuel tau flag x_t f_xt).exit = .floor →
        (xLS retr ay x rgx gamma fxval npg xfloor fuel tau flag x_t f_xt).tau < xfloor ∧
        (xLS retr ay x rgx gamma fxval npg xfloor fuel tau flag x_t f_xt).minStep = true) := by
  intro fuel
  induction fuel with
  | zero =>
    intro tau flag x_t f_xt htau hf
    unfold xLS
    split
    next harm =>
      exact ⟨hf, htau, fun _ => ⟨harm, rfl⟩, fun h => LSExit.noConfusion h⟩
    next =>
      split
      next hfl =>
        exact ⟨hf, mul_nonneg htau hg, fun h => LSExit.noConfusion h,
          fun _ => ⟨hfl, rfl⟩⟩
      next =>
        exact ⟨hf, mul_nonneg htau hg, fun h => LSExit.noConfusion h,
          fun h => LSExit.noConfusion h⟩
  | succ fuel ih =>
    intro tau flag x_t f_xt htau hf
    unfold xLS
    split
    next harm =>
      exact ⟨hf, htau, fun _ => ⟨harm, rfl⟩, fun h => LSExit.noConfusion h⟩
    next =>
      split
      next hfl =>
        exact ⟨hf, mul_nonneg htau hg, fun h => LSExit.noConfusion h,
          fun _ => ⟨hfl, rfl⟩⟩
      next =>
        exact ih (tau * gamma) true _ _ (mul_nonneg htau hg) rfl

/-- Postconditions of the finite-ridge y update: the result satisfies the
loop invariants with `normpg ≥ 0`, and an `armijo` exit means the accepted
trial passed the sufficient-decrease test against the previous trace value
`s.fPrev`. -/
lemma yUpdateF_spec {d n : ℕ} (A : Mat d d) (mu : Fin n → ℚ) (lamb gamma ly : ℚ)
    (fuel : ℕ) (s : St d n) (hg : 0 ≤ gamma) (hly : 0 ≤ ly) (ht : 0 ≤ s.t) :
    (yUpdateF A mu lamb gamma ly fuel s).ay = A * (yUpdateF A mu lamb gamma ly fuel s).y ∧
    (yUpdateF A mu lamb gamma ly fuel s).f
        = fYVal s.x mu lamb (yUpdateF A mu lamb gamma ly fuel s).y
            (yUpdateF A mu lamb gamma ly fuel s).ay ∧
    0 ≤ (yUpdateF A mu lamb gamma ly fuel s).t ∧
    0 ≤ (yUpdateF A mu lamb gamma ly fuel s).npg ∧
    ((yUpdateF A mu lamb gamma ly fuel s).exit = .armijo →
      (yUpdateF A mu lamb gamma ly fuel s).f
        ≤ s.fPrev - (1 / 1000) * (yUpdateF A mu lamb gamma ly fuel s).t
            * (yUpdateF A mu lamb gamma ly fuel s).npg) ∧
    ((yUpdateF A mu lamb gamma ly fuel s).exit = .floor →
      (yUpdateF A mu lamb gamma ly fuel s).t < (1 / 100000) / (d : ℚ)) := by
  have ht1 : 0 ≤ (if s.flagY then max (1 / ly) (s.t / (101 / 100)) else s.t * (101 / 100)) := by
    split
    · exact le_trans (div_nonneg zero_le_one hly) (le_max_left _ _)
    · exact mul_nonneg ht (by norm_num)
  have hnpg : 0 ≤ fro2 (yTrialF s.y s.ay s.ax mu lamb
      (if s.flagY then max (1 / ly) (s.t / (101 / 100)) else s.t * (101 / 100)) - s.y)
      / (if s.flagY then max (1 / ly) (s.t / (101 / 100)) else s.t * (101 / 100)) ^ 2 :=
    div_nonneg (fro2_nonneg _) (sq_nonneg _)
  have h := yLSF_spec s.x s.y s.ay s.ax A mu lamb gamma s.fPrev
    (fro2 (yTrialF s.y s.ay s.ax mu lamb
      (if s.flagY then max (1 / ly) (s.t / (101 / 100)) else s.t * (101 / 100)) - s.y)
      / (if s.flagY then max (1 / ly) (s.t / (101 / 100)) else s.t * (101 / 100)) ^ 2)
    ((1 / 100000) / (d : ℚ)) hg fuel
    (if s.flagY then max (1 / ly) (s.t / (101 / 100)) else s.t * (101 / 100)) false
    (yTrialF s.y s.ay s.ax mu lamb
      (if s.flagY then max (1 / ly) (s.t / (101 / 100)) else s.t * (101 / 100)))
    (A * yTrialF s.y s.ay s.ax mu lamb
      (if s.flagY then max (1 / ly) (s.t / (101 / 100)) else s.t * (101 / 100)))
    (fYVal s.x mu lamb
      (yTrialF s.y s.ay s.ax mu lamb
        (if s.flagY then max (1 / ly) (s.t / (101 / 100)) else s.t * (101 / 100)))
      (A * yTrialF s.y s.ay s.ax mu lamb
        (if s.flagY then max (1 / ly) (s.t / (101 / 100)) else s.t * (101 / 100))))
    ht1 rfl rfl
  obtain ⟨h1, h2, h3, h4, h5, h6⟩ := h
  exact ⟨h1, h2, h3, h4 ▸ hnpg, fun he => h4 ▸ h5 he, h6⟩

/-- Postconditions of the finite-ridge x update. -/
lemma xUpdateF_spec {d n : ℕ} (retr : Mat d n → Mat d n) (gamma : ℚ) (fuel : ℕ)
    (x ay : Mat d n) (tau : ℚ) (flagX minStep : Bool)
    (hg : 0 ≤ gamma) (htau : 0 ≤ tau) :
    (xUpdateF retr gamma fuel x ay tau flagX minStep).f
        = -2 * sumMul (xUpdateF retr gamma fuel x ay tau flagX minStep).x ay ∧
    0 ≤ (xUpdateF retr gamma fuel x ay tau flagX minStep).tau ∧
    ((xUpdateF retr gamma fuel x ay tau flagX minStep).exit = .armijo →
      (xUpdateF retr gamma fuel x ay tau flagX minStep).f
        ≤ (-2 * sumMul x ay) - (1 / 1000)
            * (xUpdateF retr gamma fuel x ay tau flagX minStep).tau
            * fro2 (rgxFin x (gxOf ay))) := by
  have htau2 : 0 ≤ (if minStep then 1 / (d : ℚ)
      else if flagX then tau else tau * (11 / 10)) := by
    split
    · exact div_nonneg zero_le_one (Nat.cast_nonneg d)
    · split
      · exact htau
      · exact mul_nonneg htau (by norm_num)
  have h := xLS_spec retr ay x (rgxFin x (gxOf ay)) gamma (-2 * sumMul x ay)
    (fro2 (rgxFin x (gxOf ay))) ((1 / 100000) / (d : ℚ)) hg fuel
    (if minStep then 1 / (d : ℚ) else if flagX then tau else tau * (11 / 10)) false
    (retr (x - (if minStep then 1 / (d : ℚ)
        else if flagX then tau else tau * (11 / 10)) • rgxFin x (gxOf ay)))
    (-2 * sumMul (retr (x - (if minStep then 1 / (d : ℚ)
        else if flagX then tau else tau * (11 / 10)) • rgxFin x (gxOf ay))) ay)
    htau2 rfl
  exact ⟨h.1, h.2.1, fun he => (h.2.2.1 he).1⟩

/-- Strong minimality of the scalar soft-threshold: `softThresh v (w/2)`
minimizes `z ↦ -2*v*z + z^2 + w*|z|` with margin `(s - u)^2` against any
competitor `u` (the objective is 2-strongly convex). -/
lemma softThresh_strong_min (v w u : ℚ) (hw : 0 ≤ w) :
    -2 * v * softThresh v (w / 2) + softThresh v (w / 2) ^ 2
        + w * |softThresh v (w / 2)| + (softThresh v (w / 2) - u) ^ 2
      ≤ -2 * v * u + u ^ 2 + w * |u| := by
  unfold softThresh qsign
  rcases le_or_lt (|v|) (w / 2) with hsmall | hbig
  · rw [max_eq_right (by linarith), mul_zero, abs_zero]
    have h1 : v * u ≤ |v| * |u| := le_trans (le_abs_self _) (le_of_eq (abs_mul v u))
    have h2 : |v| * |u| ≤ (w / 2) * |u| :=
      mul_le_mul_of_nonneg_right hsmall (abs_nonneg u)
    nlinarith [h1, h2]
  · rw [max_eq_left (by linarith)]
    rcases lt_trichotomy (0:ℚ) v with hv | hv | hv
    · rw [if_pos hv]
      rw [abs_of_pos hv] at hbig ⊢
      rw [one_mul, abs_of_pos (by linarith)]
      nlinarith [mul_nonneg hw (sub_nonneg.mpr (le_abs_self u))]
    · exfalso
      rw [← hv, abs_zero] at hbig
      linarith
    · rw [if_neg (not_lt.mpr hv.le), if_pos hv]
      rw [abs_of_neg hv] at hbig ⊢
      have hs : (-1:ℚ) * (-v - w / 2) = v + w / 2 := by ring
      rw [hs, abs_of_neg (by linarith : v + w / 2 < 0)]
      nlinarith [mul_nonneg hw (by linarith [neg_abs_le u] : (0:ℚ) ≤ |u| + u)]

/-- `np.sum(a * b)` as a trace: `sum(a ⊙ b) = tr(aᵀ b)`. -/
lemma sumMul_eq_trace {m n : ℕ} (a b : Mat m n) :
    sumMul a b = Matrix.trace (aᵀ * b) := by
  unfold sumMul Matrix.trace
  simp only [Matrix.diag_apply, Matrix.mul_apply, Matrix.transpose_apply]
  exact Finset.sum_comm

/-- Exchange identity `np.sum(x * (A @ z)) = np.sum((Aᵀ @ x) * z)`. -/
lemma sumMul_mul_left {d n : ℕ} (A : Mat d d) (x z : Mat d n) :
    sumMul x (A * z) = sumMul (Aᵀ * x) z := by
  rw [sumMul_eq_trace, sumMul_eq_trace, Matrix.transpose_mul, Matrix.transpose_transpose,
    Matrix.mul_assoc]

/-- The squared Frobenius norm of the zero matrix. -/
lemma fro2_zero {d n : ℕ} : fro2 (0 : Mat d n) = 0 := by
  unfold fro2
  simp

/-- Expansion of the infinite-ridge objective (plus a quadratic slack term)
into a single entrywise double sum. -/
lemma objExpand {d n : ℕ} (ax z wmat : Mat d n) (mu : Fin n → ℚ) :
    -2 * sumMul ax z + fro2 z + hPen mu z + fro2 wmat
      = ∑ i, ∑ j,
          (-2 * (ax i j * z i j) + z i j ^ 2 + mu j * |z i j| + wmat i j ^ 2) := by
  unfold sumMul fro2 hPen
  have hpen : (∑ j, mu j * ∑ i, |z i j|) = ∑ i, ∑ j, mu j * |z i j| := by
    rw [Finset.sum_comm]
    exact Finset.sum_congr rfl fun j _ => Finset.mul_sum _ _ _
  rw [hpen]
  simp only [Finset.mul_sum]
  rw [← Finset.sum_add_distrib, ← Finset.sum_add_distrib, ← Finset.sum_add_distrib]
  refine Finset.sum_congr rfl fun i _ => ?_
  rw [← Finset.sum_add_distrib, ← Finset.sum_add_distrib, ← Finset.sum_add_distrib]

/-- The infinite-ridge y update argument simplifies:
`y - 2 * (1/2) * (-ax + y) = ax`, so each entry of the update is the scalar
soft-threshold of `ax` at threshold `mu j / 2`. -/
lemma yUpdateInf_apply {d n : ℕ} (ax y : Mat d n) (mu : Fin n → ℚ) (i : Fin d) (j : Fin n) :
    yUpdateInf ax y mu i j = softThresh (ax i j) (mu j / 2) := by
  unfold yUpdateInf
  have harg : y - (2 * (1 / 2 : ℚ)) • ((-ax) + y) = ax := by
    ext i' j'
    simp only [Matrix.sub_apply, Matrix.smul_apply, Matrix.add_apply, Matrix.neg_apply,
      smul_eq_mul]
    ring
  rw [harg, prox_l1_apply]
  have : mu j * (1 / 2) = mu j / 2 := by ring
  rw [this]

/-- Entrywise sum comparison: the soft-threshold update beats the previous
`y` entrywise in the 2-strongly-convex per-entry objective, with margin
`(y' - y)^2`. -/
lemma descent_sum {d n : ℕ} (ax ymat y1 : Mat d n) (mu : Fin n → ℚ)
    (hmu : ∀ j, 0 ≤ mu j)
    (hy1 : ∀ i j, y1 i j = softThresh (ax i j) (mu j / 2)) :
    (∑ i, ∑ j, (-2 * (ax i j * y1 i j) + y1 i j ^ 2 + mu j * |y1 i j|
        + (y1 - ymat) i j ^ 2))
      ≤ ∑ i, ∑ j, (-2 * (ax i j * ymat i j) + ymat i j ^ 2 + mu j * |ymat i j|
        + ((0 : Mat d n) i j) ^ 2) := by
  refine Finset.sum_le_sum fun i _ => Finset.sum_le_sum fun j _ => ?_
  have hz : ((0 : Mat d n) i j) = 0 := rfl
  rw [hz, Matrix.sub_apply, hy1 i j]
  have h := softThresh_strong_min (ax i j) (mu j) (ymat i j) (hmu j)
  nlinarith [h]

/-- C2: the y updates of both branches conform to the claimed
proximal-gradient-with-Armijo-line-search discipline, and precede the x
updates.  Finite branch: the backtracking loop accepts exactly when the
trial passes `f_trial <= f_prev - 1e-3 * t * normpg`, shrinking `t` by
`gamma` and retrying otherwise, until the floor `1e-5/d`.  Infinite branch:
the single fixed-step trial (`t = 1/2`) provably always satisfies that same
acceptance test (the smooth part is an exact quadratic with Lipschitz
constant 2 and the step is exactly 1/L), so it is accepted with zero
shrinks.  Both step functions perform the y update before the x update. -/
theorem C2_y_update_discipline :
    (∀ (d n : ℕ) (A : Mat d d) (mu : Fin n → ℚ) (lamb gamma ly : ℚ) (fuel : ℕ)
        (s : St d n), 0 ≤ gamma → 0 ≤ ly → 0 ≤ s.t →
        ((yUpdateF A mu lamb gamma ly fuel s).exit = .armijo →
          (yUpdateF A mu lamb gamma ly fuel s).f
            ≤ s.fPrev - (1 / 1000) * (yUpdateF A mu lamb gamma ly fuel s).t
                * (yUpdateF A mu lamb gamma ly fuel s).npg) ∧
        ((yUpdateF A mu lamb gamma ly fuel s).exit = .floor →
          (yUpdateF A mu lamb gamma ly fuel s).t < (1 / 100000) / (d : ℚ))) ∧
    (∀ (d n : ℕ) (A : Mat d d) (x y : Mat d n) (mu : Fin n → ℚ),
        Aᵀ = A → (∀ j, 0 ≤ mu j) →
        fYValInf A x mu (yUpdateInf (A * x) y mu)
          ≤ fYValInf A x mu y
            - (1 / 1000) * (1 / 2)
                * (fro2 (yUpdateInf (A * x) y mu - y) / (1 / 2) ^ 2)) ∧
    (∀ (d n : ℕ) (A : Mat d d) (retr : Mat d n → Mat d n) (mu : Fin n → ℚ)
        (lamb gamma ly : ℚ) (fuel : ℕ) (s : St d n),
        (stepF A retr mu lamb gamma ly fuel s).y = (yUpdateF A mu lamb gamma ly fuel s).y ∧
        (stepI A retr mu gamma fuel s).y = yUpdateInf s.ax s.y mu) := by
  refine ⟨?_, ?_, ?_⟩
  · intro d n A mu lamb gamma ly fuel s hg hly ht
    obtain ⟨_, _, _, _, h5, h6⟩ := yUpdateF_spec A mu lamb gamma ly fuel s hg hly ht
    exact ⟨h5, h6⟩
  · intro d n A x y mu hA hmu
    have hswap : ∀ z : Mat d n, sumMul x (A * z) = sumMul (A * x) z := by
      intro z
      rw [sumMul_mul_left, hA]
    have hentry : ∀ i j, yUpdateInf (A * x) y mu i j = softThresh ((A * x) i j) (mu j / 2) :=
      fun i j => yUpdateInf_apply (A * x) y mu i j
    have hkey := descent_sum (A * x) y (yUpdateInf (A * x) y mu) mu hmu hentry
    rw [← objExpand (A * x) (yUpdateInf (A * x) y mu) (yUpdateInf (A * x) y mu - y) mu,
      ← objExpand (A * x) y (0 : Mat d n) mu, fro2_zero] at hkey
    unfold fYValInf
    rw [hswap, hswap]
    have hc : (1 / 1000 : ℚ) * (1 / 2)
        * (fro2 (yUpdateInf (A * x) y mu - y) / (1 / 2) ^ 2)
        = fro2 (yUpdateInf (A * x) y mu - y) / 500 := by
      ring
    rw [hc]
    have hd := fro2_nonneg (yUpdateInf (A * x) y mu - y)
    linarith
  · intro d n A retr mu lamb gamma ly fuel s
    exact ⟨rfl, rfl⟩

/-- C8 amended: in the finite-ridge branch, whenever both backtracking
searches of an iteration exit through the Armijo test (rather than the step
floor), the appended trace value does not exceed its predecessor — the two
sufficient-decrease inequalities chain through
`f_rgd[i] = f_xtrial + fy <= fxval + fy = f_ytrial <= f_rgd[i-1]`.  Without
that proviso the trace can increase (see the counterexample, which runs the
infinite-ridge branch). -/
theorem C8_trace_monotone_on_armijo_exits :
    ∀ (d n : ℕ) (A : Mat d d) (retr : Mat d n → Mat d n) (mu : Fin n → ℚ)
      (lamb gamma ly : ℚ) (fuel : ℕ) (s : St d n),
      0 ≤ gamma → 0 ≤ ly → 0 ≤ s.t → 0 ≤ s.tau →
      (yUpdateF A mu lamb gamma ly fuel s).exit = LSExit.armijo →
      (xUpdateF retr gamma fuel s.x (yUpdateF A mu lamb gamma ly fuel s).ay
          s.tau s.flagX s.minStep).exit = LSExit.armijo →
      (stepF A retr mu lamb gamma ly fuel s).fPrev ≤ s.fPrev ∧
      (stepF A retr mu lamb gamma ly fuel s).trace
        = s.trace ++ [(stepF A retr mu lamb gamma ly fuel s).fPrev] := by
  intro d n A retr mu lamb gamma ly fuel s hg hly ht htau hye hxe
  obtain ⟨hy1, hy2, hy3, hy4, hy5, _⟩ := yUpdateF_spec A mu lamb gamma ly fuel s hg hly ht
  obtain ⟨hx1, hx2, hx3⟩ := xUpdateF_spec retr gamma fuel s.x
    (yUpdateF A mu lamb gamma ly fuel s).ay s.tau s.flagX s.minStep hg htau
  refine ⟨?_, rfl⟩
  have hstep : (stepF A retr mu lamb gamma ly fuel s).fPrev
      = (xUpdateF retr gamma fuel s.x (yUpdateF A mu lamb gamma ly fuel s).ay
          s.tau s.flagX s.minStep).f
        + (sumMul (yUpdateF A mu lamb gamma ly fuel s).y
              (yUpdateF A mu lamb gamma ly fuel s).ay
           + lamb * fro2 (yUpdateF A mu lamb gamma ly fuel s).y
           + hPen mu (yUpdateF A mu lamb gamma ly fuel s).y) := rfl
  rw [hstep]
  have harm := hx3 hxe
  have hxnn : 0 ≤ (1 / 1000 : ℚ)
      * (xUpdateF retr gamma fuel s.x (yUpdateF A mu lamb gamma ly fuel s).ay
          s.tau s.flagX s.minStep).tau
      * fro2 (rgxFin s.x (gxOf (yUpdateF A mu lamb gamma ly fuel s).ay)) :=
    mul_nonneg (mul_nonneg (by norm_num) hx2) (fro2_nonneg _)
  have hyarm := hy5 hye
  have hynn : 0 ≤ (1 / 1000 : ℚ) * (yUpdateF A mu lamb gamma ly fuel s).t
      * (yUpdateF A mu lamb gamma ly fuel s).npg :=
    mul_nonneg (mul_nonneg (by norm_num) hy3) hy4
  unfold fYVal at hy2
  linarith

/-- Witness for the amended C8 at the concrete finite-ridge state `sW` with
`A = [[1]]`, `mu = 0`, `lamb = 1`, `gamma = 1/2`, `ly = 4`: both searches
accept immediately and the appended value `-1/2` is below `f_rgd[0] = 0`. -/
theorem C8_trace_monotone_witness :
    (stepF A1 polar1 mu0 1 (1 / 2) 4 100 sW).fPrev ≤ sW.fPrev ∧
    (stepF A1 polar1 mu0 1 (1 / 2) 4 100 sW).trace
      = sW.trace ++ [(stepF A1 polar1 mu0 1 (1 / 2) 4 100 sW).fPrev] :=
  C8_trace_monotone_on_armijo_exits 1 1 A1 polar1 mu0 1 (1 / 2) 4 100 sW
    (by norm_num) (by norm_num) (by with_unfolding_all decide)
    (by with_unfolding_all decide) (by with_unfolding_all decide)
    (by with_unfolding_all decide)

/-- Witness for C2 (its infinite-ridge conjunct) at `A = [[1]]`,
`x = [[2]]`, `y = [[1]]`, `mu = 0`: the fixed-step update moves `y` to
`[[2]]` and the objective drops from `-3` to `-4`, comfortably past the
Armijo threshold `-3 - 1/500 * 1`. -/
theorem C2_y_update_discipline_witness :
    fYValInf A1 xW mu0 (yUpdateInf (A1 * xW) yW mu0)
      ≤ fYValInf A1 xW mu0 yW
        - (1 / 1000) * (1 / 2)
            * (fro2 (yUpdateInf (A1 * xW) yW mu0 - yW) / (1 / 2) ^ 2) :=
  C2_y_update_discipline.2.1 1 1 A1 xW yW mu0 (by with_unfolding_all decide)
    (fun _ => le_refl 0)

set_option maxRecDepth 100000 in

/-- C8 counterexample: in this run the trace starts `f_rgd[0] = -3` and the
value appended at iteration 1 is `f_rgd[1] = 0` — an increase of 3, far
beyond the claimed `1e-9` tolerance.  (The y step jumps to `prox(ax) = 2`
and the x search collapses to its floor, flipping `x` to `[[1]]`.) -/
theorem C8_counterexample :
    (runC8.map fun p => p.2.trace.take 2) = some [(-3 : ℚ), 0] ∧
      ¬ ((0 : ℚ) ≤ -3 + 1 / 1000000000) := by
  constructor
  · with_unfolding_all decide
  · norm_num

end AManPG
